import Mathlib

/-
  Verification of the Structure-Mapper JSON structure analyzer
  (src/utils/jsonAnalyzer.ts) against its natural-language specification.

  The embedding models:
  - parsed JSON values (the input domain of JsonAnalyzer.determineJsonStructure);
  - shape values (the untyped "structure" values the analyzer returns:
    type-name strings, JS arrays of shapes, and plain key-value objects);
  - JsonAnalyzer.determineJsonStructure, JsonAnalyzer.mergeStructures,
    JsonAnalyzer.countTotalItems and JsonAnalyzer.calculateStructureComplexity,
    plus a state-threaded variant of determineJsonStructure that models the
    instance counters (processedItems, totalItems) and the Logger side channel.

  JSON values and shape values are mutual inductives (a value together with
  the list forms appearing under array and object constructors), so that all
  traversals are structural and compute.

  mergeStructures recurses through values of its own accumulator, so its
  recursion is not structural; it is embedded with an explicit fuel argument
  (mergeF) and used at the canonical fuel sumS structures + 1, which is
  proved sufficient below, so the fuel never alters the modelled behavior.
-/

mutual
/-- A parsed JSON value: the input domain of determineJsonStructure. -/
inductive Json : Type where
  | str (s : String)
  | num (n : Int)
  | bool (b : Bool)
  | null
  | arr (elems : JsonList)
  | obj (fields : JsonFields)

/-- The elements of a JSON array. -/
inductive JsonList : Type where
  | nil
  | cons (hd : Json) (tl : JsonList)

/-- The key-value entries of a JSON object, in insertion order. -/
inductive JsonFields : Type where
  | nil
  | cons (key : String) (val : Json) (tl : JsonFields)
end

mutual
/-- A shape value: the untyped result of determineJsonStructure.
    prim models the type-name strings the analyzer returns
    ("string", "number", "boolean", "null", "empty[]");
    arr models a JS array of shapes; obj models a plain JS object used as an
    insertion-ordered string-keyed record of shapes. -/
inductive S : Type where
  | prim (label : String)
  | arr (elems : SList)
  | obj (fields : SFields)

/-- The elements of a JS array of shapes. -/
inductive SList : Type where
  | nil
  | cons (hd : S) (tl : SList)

/-- The fields of a JS object of shapes, in insertion order. -/
inductive SFields : Type where
  | nil
  | cons (key : String) (val : S) (tl : SFields)
end

mutual
/-- Decidable equality of shapes (needed to evaluate concrete runs). -/
def decEqS : (a b : S) → Decidable (a = b)
  | .prim x, .prim y =>
    if h : x = y then isTrue (by rw [h]) else isFalse (by simp [h])
  | .prim _, .arr _ => isFalse (by intro h; exact S.noConfusion h)
  | .prim _, .obj _ => isFalse (by intro h; exact S.noConfusion h)
  | .arr _, .prim _ => isFalse (by intro h; exact S.noConfusion h)
  | .arr x, .arr y =>
    match decEqSL x y with
    | isTrue h => isTrue (by rw [h])
    | isFalse h => isFalse (by intro e; injection e; contradiction)
  | .arr _, .obj _ => isFalse (by intro h; exact S.noConfusion h)
  | .obj _, .prim _ => isFalse (by intro h; exact S.noConfusion h)
  | .obj _, .arr _ => isFalse (by intro h; exact S.noConfusion h)
  | .obj x, .obj y =>
    match decEqSF x y with
    | isTrue h => isTrue (by rw [h])
    | isFalse h => isFalse (by intro e; injection e; contradiction)

def decEqSL : (a b : SList) → Decidable (a = b)
  | .nil, .nil => isTrue rfl
  | .nil, .cons _ _ => isFalse (by intro h; exact SList.noConfusion h)
  | .cons _ _, .nil => isFalse (by intro h; exact SList.noConfusion h)
  | .cons h1 t1, .cons h2 t2 =>
    match decEqS h1 h2, decEqSL t1 t2 with
    | isTrue p, isTrue q => isTrue (by rw [p, q])
    | isFalse p, _ => isFalse (by intro e; injection e; contradiction)
    | _, isFalse q => isFalse (by intro e; injection e; contradiction)

def decEqSF : (a b : SFields) → Decidable (a = b)
  | .nil, .nil => isTrue rfl
  | .nil, .cons _ _ _ => isFalse (by intro h; exact SFields.noConfusion h)
  | .cons _ _ _, .nil => isFalse (by intro h; exact SFields.noConfusion h)
  | .cons k1 v1 t1, .cons k2 v2 t2 =>
    if hk : k1 = k2 then
      match decEqS v1 v2, decEqSF t1 t2 with
      | isTrue p, isTrue q => isTrue (by rw [hk, p, q])
      | isFalse p, _ => isFalse (by intro e; injection e; contradiction)
      | _, isFalse q => isFalse (by intro e; injection e; contradiction)
    else isFalse (by intro e; injection e; contradiction)
end

instance : DecidableEq S := decEqS

instance : DecidableEq SList := decEqSL

instance : DecidableEq SFields := decEqSF

/-- View of a shape list as a Lean list. -/
def toListS : SList → List S
  | .nil => []
  | .cons hd tl => hd :: toListS tl

/-- Building a shape list from a Lean list. -/
def ofListS : List S → SList
  | [] => .nil
  | hd :: tl => .cons hd (ofListS tl)

/-- View of shape object fields as a Lean association list. -/
def toFields : SFields → List (String × S)
  | .nil => []
  | .cons k v tl => (k, v) :: toFields tl

/-- Building shape object fields from a Lean association list. -/
def ofFields : List (String × S) → SFields
  | [] => .nil
  | (k, v) :: tl => .cons k v (ofFields tl)

/-- View of a JSON array's elements as a Lean list. -/
def toListJ : JsonList → List Json
  | .nil => []
  | .cons hd tl => hd :: toListJ tl

/-- View of a JSON object's entries as a Lean association list. -/
def toFieldsJ : JsonFields → List (String × Json)
  | .nil => []
  | .cons k v tl => (k, v) :: toFieldsJ tl

/-- The number of entries of a JSON object (entries.length in the source). -/
def lenJF : JsonFields → Nat
  | .nil => 0
  | .cons _ _ tl => lenJF tl + 1

mutual
/-- Number of nodes of a shape: the termination measure for mergeStructures. -/
def sizeS : S → Nat
  | .prim _ => 1
  | .arr es => 1 + sizeSL es
  | .obj fs => 1 + sizeSF fs
termination_by structural s => s

def sizeSL : SList → Nat
  | .nil => 0
  | .cons hd tl => sizeS hd + sizeSL tl
termination_by structural l => l

def sizeSF : SFields → Nat
  | .nil => 0
  | .cons _ v tl => sizeS v + sizeSF tl
termination_by structural fs => fs
end

/-- Total node count of a list of shapes. -/
def sumS (l : List S) : Nat := (l.map sizeS).sum

/-- Total node count of the values of a record. -/
def sumVals (m : List (String × S)) : Nat := (m.map (fun p => sizeS p.2)).sum

/-- Array.isArray on a shape. -/
def isArrS : S → Bool
  | .arr _ => true
  | _ => false

/-- The JS test (typeof x evaluates to "object") on a shape: true for arrays
    and plain objects, false for the type-name strings. -/
def isObjTypeS : S → Bool
  | .arr _ => true
  | .obj _ => true
  | .prim _ => false

/-- The element list of an array shape (unused fallback for non-arrays). -/
def elemsS : S → List S
  | .arr es => toListS es
  | _ => []

/-- The sentinel shape the analyzer uses for empty arrays: the string "empty[]". -/
def emptyArrayLabel : S := .prim "empty[]"

/-- The JS comparison (item is the string "empty[]") on a shape. -/
def isEmptyArrayLabel : S → Bool
  | .prim l => l == "empty[]"
  | _ => false

/-- Object.entries on a shape. For a plain object it returns its fields in
    insertion order; for a JS array it returns index-keyed entries
    ("0", "1", ...); primitives (JS strings) have no own enumerable entries
    and are skipped by the guard (typeof struct evaluates to "object") in
    mergeStructures, which is equivalent to iterating zero entries. -/
def entriesOfS : S → List (String × S)
  | .obj fs => toFields fs
  | .arr es => (toListS es).enum.map (fun p => (toString p.1, p.2))
  | .prim _ => []

/-- Total node count of the entry values of a struct. -/
def entVals (s : S) : Nat := sumVals (entriesOfS s)

/-- Lookup in an insertion-ordered record: the JS (key in merged) test plus
    the read of merged[key]. -/
def lookupS : List (String × S) → String → Option S
  | [], _ => none
  | p :: rest, k => if p.1 = k then some p.2 else lookupS rest k

/-- The JS assignment merged[key] = value for a key already present: replaces
    the (first, and by construction only) binding of the key in place,
    preserving insertion order. -/
def setS : List (String × S) → String → S → List (String × S)
  | [], _, _ => []
  | p :: rest, k, v => if p.1 = k then (k, v) :: rest else p :: setS rest k v

/-- The keys of a record, in insertion order. -/
def keysOf (m : List (String × S)) : List String := m.map Prod.fst

/-- The currentArray local of mergeStructures: the existing value normalized
    to a list (an array shape unwrapped, anything else wrapped singleton). -/
def currentArrayOf (cur : S) : List S :=
  if isArrS cur then elemsS cur else [cur]

/-- The newArray local of mergeStructures: the incoming value normalized. -/
def newArrayOf (value : S) : List S :=
  if isArrS value then elemsS value else [value]

/-- The combinedArrays local of mergeStructures: both sides concatenated with
    every "empty[]" entry dropped. -/
def combinedArraysOf (cur value : S) : List S :=
  (currentArrayOf cur ++ newArrayOf value).filter
    (fun item => !(isEmptyArrayLabel item))

/-- One iteration of the inner Object.entries loop of mergeStructures
    (jsonAnalyzer.ts lines 80-103), processing a single (key, value) entry
    against the accumulator. The recursive mergeStructures calls are
    abstracted as the parameter recur (instantiated with mergeF fuel below). -/
def mergeEntryAux (recur : List S → Option (List (String × S)))
    (merged : List (String × S)) (key : String) (value : S) :
    Option (List (String × S)) :=
  match lookupS merged key with
  | none => some (merged ++ [(key, value)])
  | some cur =>
    if isArrS cur || isArrS value then
      let combined := combinedArraysOf cur value
      if combined.length > 0 then
        match recur combined with
        | none => none
        | some m => some (setS merged key (.arr (.cons (.obj (ofFields m)) .nil)))
      else
        some (setS merged key emptyArrayLabel)
    else if isObjTypeS cur && isObjTypeS value then
      match recur [cur, value] with
      | none => none
      | some m => some (setS merged key (.obj (ofFields m)))
    else
      some (setS merged key value)

/-- The Object.entries forEach loop of mergeStructures over one struct. -/
def mergeEntriesAux (recur : List S → Option (List (String × S)))
    (merged : List (String × S)) :
    List (String × S) → Option (List (String × S))
  | [] => some merged
  | (k, v) :: rest =>
    match mergeEntryAux recur merged k v with
    | none => none
    | some m => mergeEntriesAux recur m rest

/-- The outer structures forEach loop of mergeStructures. Non-object structs
    (type-name strings) fail the guard (typeof struct evaluates to "object")
    and contribute no entries. -/
def mergeStructsAux (recur : List S → Option (List (String × S)))
    (merged : List (String × S)) : List S → Option (List (String × S))
  | [] => some merged
  | struct :: rest =>
    match mergeEntriesAux recur merged (entriesOfS struct) with
    | none => none
    | some m => mergeStructsAux recur m rest

/-- JsonAnalyzer.mergeStructures with an explicit fuel argument bounding the
    recursion depth; none signals fuel exhaustion (proved unreachable at the
    canonical fuel below). An empty structure list folds to the empty record,
    matching the defensive (structures.length equals 0) early return. -/
def mergeF : Nat → List S → Option (List (String × S))
  | 0, _ => none
  | fuel + 1, structures => mergeStructsAux (mergeF fuel) [] structures

/-- The merged record produced by mergeStructures at the canonical fuel. -/
def mergeM (structures : List S) : List (String × S) :=
  (mergeF (sumS structures + 1) structures).getD []

/-- JsonAnalyzer.mergeStructures: returns the accumulated plain object. -/
def mergeStructures (structures : List S) : S := .obj (ofFields (mergeM structures))

mutual
/-- JsonAnalyzer.determineJsonStructure (classification result only; the
    depth argument and the logging/progress side channel are modelled
    separately below and proved not to affect this result). Precedence
    follows the source: array (empty, then non-empty), then null, then
    object, then the typeof fallthrough. -/
def determineJsonStructure : Json → S
  | .arr .nil => .prim "empty[]"
  | .arr (.cons x xs) =>
    .arr (.cons (mergeStructures (inferList (.cons x xs))) .nil)
  | .null => .prim "null"
  | .obj kvs => .obj (inferFields kvs)
  | .str _ => .prim "string"
  | .num _ => .prim "number"
  | .bool _ => .prim "boolean"
termination_by structural data => data

/-- The structures array accumulated over a JSON array's elements. -/
def inferList : JsonList → List S
  | .nil => []
  | .cons hd tl => determineJsonStructure hd :: inferList tl
termination_by structural l => l

/-- The structure record accumulated over a JSON object's entries. -/
def inferFields : JsonFields → SFields
  | .nil => .nil
  | .cons k v tl => .cons k (determineJsonStructure v) (inferFields tl)
termination_by structural fs => fs
end

mutual
/-- JsonAnalyzer.countTotalItems. -/
def countTotalItems : Json → Nat
  | .arr items => 1 + countItemsList items
  | .obj kvs => 1 + countItemsFields kvs
  | _ => 1
termination_by structural data => data

/-- Sum of countTotalItems over array elements. -/
def countItemsList : JsonList → Nat
  | .nil => 0
  | .cons hd tl => countTotalItems hd + countItemsList tl
termination_by structural l => l

/-- Sum of countTotalItems over object values. -/
def countItemsFields : JsonFields → Nat
  | .nil => 0
  | .cons _ v tl => countTotalItems v + countItemsFields tl
termination_by structural fs => fs
end

/-- uniqueFields.add(key) on the insertion-ordered set of field names. -/
def addField (fields : List String) (k : String) : List String :=
  if k ∈ fields then fields else fields ++ [k]

mutual
/-- The traverse closure of JsonAnalyzer.calculateStructureComplexity:
    given a shape, the current depth, and the unique-field set so far,
    returns the maximum depth reached and the updated set. -/
def traverseS : S → Nat → List String → Nat × List String
  | .prim _, depth, fields => (depth, fields)
  | .arr .nil, depth, fields => (depth, fields)
  | .arr (.cons e _), depth, fields => traverseS e depth fields
  | .obj fs, depth, fields => traverseFields fs depth depth fields
termination_by structural s => s

/-- The field loop of traverse: walks the entries, adding each key to the
    unique-field set and recursing (at depth + 1) into object-typed values,
    tracking the running maximum depth. -/
def traverseFields : SFields → Nat → Nat → List String → Nat × List String
  | .nil, _, maxDepth, fields => (maxDepth, fields)
  | .cons k v tl, depth, maxDepth, fields =>
    let fields1 := addField fields k
    if isObjTypeS v then
      let r := traverseS v (depth + 1) fields1
      traverseFields tl depth (max maxDepth r.1) r.2
    else
      traverseFields tl depth maxDepth fields1
termination_by structural fs => fs
end

/-- JsonAnalyzer.calculateStructureComplexity: maxDepth and the size of the
    global unique-field-name set. -/
def calculateStructureComplexity (structure1 : S) : Nat × Nat :=
  let r := traverseS structure1 0 []
  (r.1, r.2.length)

/-- The mutable state of a JsonAnalyzer instance together with its Logger
    side channel: the processedItems and totalItems counters and the number
    of messages written to the console (message text is irrelevant to every
    claim, so only the count of emissions is tracked). -/
structure AnState : Type where
  processed : Nat
  total : Nat
  logs : Nat

/-- Logger.verboseLog: writes to the console only when the logger is verbose
    and not silent. -/
def verboseLogSt (verbose silent : Bool) (st : AnState) : AnState :=
  if verbose && !silent then { st with logs := st.logs + 1 } else st

mutual
/-- JsonAnalyzer.determineJsonStructure with its side channels: the depth
    argument, the processedItems / totalItems instance counters, and the
    verbose progress reporting, threaded explicitly. Returns the structure
    together with the updated instance state. -/
def determineJsonStructureSt (verbose silent : Bool) :
    Json → Nat → AnState → S × AnState
  | data, depth, st0 =>
    let st1 :=
      if depth = 0 then
        verboseLogSt verbose silent
          { st0 with processed := 0, total := countTotalItems data }
      else st0
    match data with
    | .arr .nil => (.prim "empty[]", st1)
    | .arr (.cons x xs) =>
      let r := inferListSt verbose silent depth 0 (.cons x xs) st1
      (.arr (.cons (mergeStructures r.1) .nil), r.2)
    | .null => (.prim "null", st1)
    | .obj kvs =>
      let st2 := if depth = 0 && verbose then verboseLogSt verbose silent st1
        else st1
      let r := inferFieldsSt verbose silent depth (lenJF kvs) 0 kvs st2
      (.obj r.1, r.2)
    | .str _ => (.prim "string", st1)
    | .num _ => (.prim "number", st1)
    | .bool _ => (.prim "boolean", st1)
termination_by structural data => data

/-- The array forEach loop of determineJsonStructure: increments
    processedItems per element, logs progress every 100th index when verbose
    at depth 0, and recurses at depth + 1. -/
def inferListSt (verbose silent : Bool) (depth : Nat) :
    Nat → JsonList → AnState → List S × AnState
  | _, .nil, st => ([], st)
  | index, .cons item tl, st =>
    let st1 := { st with processed := st.processed + 1 }
    let st2 :=
      if verbose = true ∧ index % 100 = 0 ∧ depth = 0 then
        verboseLogSt verbose silent st1
      else st1
    let r := determineJsonStructureSt verbose silent item (depth + 1) st2
    let rest := inferListSt verbose silent depth (index + 1) tl r.2
    (r.1 :: rest.1, rest.2)
termination_by structural _ l => l

/-- The entries forEach loop of determineJsonStructure: increments
    processedItems per field, logs progress every 1000th or last index when
    verbose at depth 0, and recurses at depth + 1. -/
def inferFieldsSt (verbose silent : Bool) (depth len : Nat) :
    Nat → JsonFields → AnState → SFields × AnState
  | _, .nil, st => (.nil, st)
  | index, .cons k v tl, st =>
    let st1 := { st with processed := st.processed + 1 }
    let st2 :=
      if verbose = true ∧ (index % 1000 = 0 ∨ index = len - 1) ∧ depth = 0 then
        verboseLogSt verbose silent st1
      else st1
    let r := determineJsonStructureSt verbose silent v (depth + 1) st2
    let rest := inferFieldsSt verbose silent depth len (index + 1) tl r.2
    (.cons k r.1 rest.1, rest.2)
termination_by structural _ fs => fs
end

-- ## Size bookkeeping

theorem sizeS_pos (s : S) : 1 ≤ sizeS s := by
  cases s <;> simp [sizeS]

theorem sumS_cons (s : S) (l : List S) : sumS (s :: l) = sizeS s + sumS l := by
  simp [sumS]

theorem sumS_append (a b : List S) : sumS (a ++ b) = sumS a + sumS b := by
  simp [sumS]

theorem sumVals_cons (p : String × S) (m : List (String × S)) :
    sumVals (p :: m) = sizeS p.2 + sumVals m := by
  simp [sumVals]

theorem sumVals_append (a b : List (String × S)) :
    sumVals (a ++ b) = sumVals a + sumVals b := by
  simp [sumVals]

theorem toFields_ofFields (l : List (String × S)) : toFields (ofFields l) = l := by
  induction l with
  | nil => rfl
  | cons p tl ih => cases p; simp [ofFields, toFields, ih]

theorem ofFields_toFields : ∀ fs : SFields, ofFields (toFields fs) = fs
  | .nil => rfl
  | .cons k v tl => by simp [ofFields, toFields, ofFields_toFields tl]
termination_by structural fs => fs

theorem sizeSF_eq_sumVals : ∀ fs : SFields, sizeSF fs = sumVals (toFields fs)
  | .nil => rfl
  | .cons k v tl => by
    simp [sizeSF, toFields, sumVals_cons, sizeSF_eq_sumVals tl]
termination_by structural fs => fs

theorem sizeSL_eq_sumS : ∀ es : SList, sizeSL es = sumS (toListS es)
  | .nil => rfl
  | .cons hd tl => by
    simp [sizeSL, toListS, sumS_cons, sizeSL_eq_sumS tl]
termination_by structural es => es

theorem sumVals_enum (l : List S) :
    sumVals (l.enum.map (fun p => (toString p.1, p.2))) = sumS l := by
  simp only [sumVals, sumS, List.map_map]
  rw [show ((fun (p : String × S) => sizeS p.2) ∘
      fun (p : Nat × S) => (toString p.1, p.2)) = sizeS ∘ Prod.snd from rfl]
  rw [← List.map_map, List.enum_map_snd]

theorem entVals_lt (s : S) : entVals s < sizeS s := by
  cases s with
  | prim l => simp [entVals, entriesOfS, sumVals, sizeS]
  | arr es =>
    simp [entVals, entriesOfS, sumVals_enum, sizeS, sizeSL_eq_sumS]
  | obj fs =>
    simp [entVals, entriesOfS, sizeS, sizeSF_eq_sumVals]

theorem sumS_elemsS (s : S) (h : isArrS s = true) :
    sumS (elemsS s) + 1 = sizeS s := by
  cases s with
  | prim l => simp [isArrS] at h
  | obj fs => simp [isArrS] at h
  | arr es => simp [elemsS, sizeS, sizeSL_eq_sumS]; omega

theorem sumS_elemsS_le (s : S) : sumS (elemsS s) ≤ sizeS s := by
  cases s with
  | prim l => simp [elemsS, sumS]
  | obj fs => simp [elemsS, sumS]
  | arr es => have := sumS_elemsS (.arr es) rfl; omega

theorem sumS_filter_le (p : S → Bool) (l : List S) :
    sumS (l.filter p) ≤ sumS l := by
  induction l with
  | nil => simp
  | cons s tl ih =>
    by_cases h : p s = true
    · simp [List.filter_cons, h, sumS_cons]; omega
    · simp only [List.filter_cons, h, Bool.false_eq_true, if_false, sumS_cons]
      omega
-- ## Record (insertion-ordered object) lemmas

theorem keysOf_nil : keysOf [] = [] := rfl

theorem keysOf_cons (p : String × S) (m : List (String × S)) :
    keysOf (p :: m) = p.1 :: keysOf m := rfl

theorem keysOf_append (a b : List (String × S)) :
    keysOf (a ++ b) = keysOf a ++ keysOf b := by
  simp [keysOf]

theorem lookupS_none_iff (m : List (String × S)) (k : String) :
    lookupS m k = none ↔ k ∉ keysOf m := by
  induction m with
  | nil => simp [lookupS, keysOf]
  | cons p tl ih =>
    obtain ⟨pk, pv⟩ := p
    by_cases h : pk = k
    · simp [lookupS, h, keysOf_cons]
    · simp only [lookupS, h, if_false, keysOf_cons, List.mem_cons, ih]
      constructor
      · intro hn hc
        rcases hc with hc | hc
        · exact h hc.symm
        · exact hn hc
      · intro hn hc
        exact hn (Or.inr hc)

theorem sizeS_lookup_le (m : List (String × S)) (k : String) (cur : S)
    (h : lookupS m k = some cur) : sizeS cur ≤ sumVals m := by
  induction m with
  | nil => simp [lookupS] at h
  | cons p tl ih =>
    obtain ⟨pk, pv⟩ := p
    by_cases hk : pk = k
    · simp [lookupS, hk] at h
      subst h
      simp [sumVals_cons]
    · simp [lookupS, hk] at h
      have := ih h
      simp [sumVals_cons]
      omega

theorem sumVals_setS (m : List (String × S)) (k : String) (cur v : S)
    (h : lookupS m k = some cur) :
    sumVals (setS m k v) + sizeS cur = sumVals m + sizeS v := by
  induction m with
  | nil => simp [lookupS] at h
  | cons p tl ih =>
    obtain ⟨pk, pv⟩ := p
    by_cases hk : pk = k
    · simp [lookupS, hk] at h
      subst h
      simp [setS, hk, sumVals_cons]
      omega
    · simp [lookupS, hk] at h
      have := ih h
      simp [setS, hk, sumVals_cons]
      omega

theorem keysOf_setS (m : List (String × S)) (k : String) (v : S) :
    keysOf (setS m k v) = keysOf m := by
  induction m with
  | nil => simp [setS]
  | cons p tl ih =>
    obtain ⟨pk, pv⟩ := p
    by_cases hk : pk = k
    · simp [setS, hk, keysOf_cons]
    · simp [setS, hk, keysOf_cons, ih]

theorem lookupS_setS_self (m : List (String × S)) (k : String) (cur v : S)
    (h : lookupS m k = some cur) : lookupS (setS m k v) k = some v := by
  induction m with
  | nil => simp [lookupS] at h
  | cons p tl ih =>
    obtain ⟨pk, pv⟩ := p
    by_cases hk : pk = k
    · simp [setS, hk, lookupS]
    · simp [lookupS, hk] at h
      simp [setS, hk, lookupS, ih h]

theorem setS_self (m : List (String × S)) (k : String) (v : S)
    (h : lookupS m k = some v) : setS m k v = m := by
  induction m with
  | nil => simp [setS]
  | cons p tl ih =>
    obtain ⟨pk, pv⟩ := p
    by_cases hk : pk = k
    · simp [lookupS, hk] at h
      subst hk
      simp [setS, h]
    · simp [lookupS, hk] at h
      simp [setS, hk, ih h]

theorem lookupS_of_mem_nodup (m : List (String × S)) (k : String) (v : S)
    (hnd : (keysOf m).Nodup) (hmem : (k, v) ∈ m) : lookupS m k = some v := by
  induction m with
  | nil => simp at hmem
  | cons p tl ih =>
    obtain ⟨pk, pv⟩ := p
    rw [keysOf_cons, List.nodup_cons] at hnd
    rcases List.mem_cons.mp hmem with h | h
    · rw [Prod.mk.injEq] at h
      simp [lookupS, h.1, h.2]
    · have hk : pk ≠ k := by
        intro he
        subst he
        exact hnd.1 (by simpa [keysOf] using List.mem_map_of_mem Prod.fst h)
      simp [lookupS, hk]
      exact ih hnd.2 h

-- ## Merge: size bounds, fuel sufficiency, fuel monotonicity

theorem sizeS_emptyArrayLabel : sizeS emptyArrayLabel = 1 := rfl

theorem sizeS_wrapArr (m : List (String × S)) :
    sizeS (.arr (.cons (.obj (ofFields m)) .nil)) = 2 + sumVals m := by
  simp [sizeS, sizeSL, sizeSF_eq_sumVals, toFields_ofFields]
  omega

theorem sizeS_wrapObj (m : List (String × S)) :
    sizeS (.obj (ofFields m)) = 1 + sumVals m := by
  simp [sizeS, sizeSF_eq_sumVals, toFields_ofFields]

theorem sumS_pair (a b : S) : sumS [a, b] = sizeS a + sizeS b := by
  simp [sumS]

theorem sumS_single (a : S) : sumS [a] = sizeS a := by
  simp [sumS]

theorem sumS_currentArrayOf (cur : S) : sumS (currentArrayOf cur) ≤ sizeS cur := by
  unfold currentArrayOf
  by_cases hc : isArrS cur = true
  · simpa [hc] using sumS_elemsS_le cur
  · simp [hc, sumS_single]

theorem sumS_newArrayOf (v : S) : sumS (newArrayOf v) ≤ sizeS v := by
  unfold newArrayOf
  by_cases hc : isArrS v = true
  · simpa [hc] using sumS_elemsS_le v
  · simp [hc, sumS_single]

theorem sumS_combinedArraysOf_le (cur v : S) :
    sumS (combinedArraysOf cur v) ≤
      sumS (currentArrayOf cur) + sumS (newArrayOf v) := by
  unfold combinedArraysOf
  rw [← sumS_append]
  exact sumS_filter_le _ _

theorem sumS_norm_lt (cur v : S) (h : (isArrS cur || isArrS v) = true) :
    sumS (currentArrayOf cur) + sumS (newArrayOf v) + 1 ≤
      sizeS cur + sizeS v := by
  have h1 := sumS_currentArrayOf cur
  have h2 := sumS_newArrayOf v
  rcases (Bool.or_eq_true _ _).mp h with hc | hc
  · have := sumS_elemsS cur hc
    unfold currentArrayOf
    rw [if_pos hc]
    omega
  · have := sumS_elemsS v hc
    unfold newArrayOf
    rw [if_pos hc]
    omega

theorem sumS_combinedArraysOf_lt (cur v : S)
    (h : (isArrS cur || isArrS v) = true) :
    sumS (combinedArraysOf cur v) + 1 ≤ sizeS cur + sizeS v := by
  have := sumS_combinedArraysOf_le cur v
  have := sumS_norm_lt cur v h
  omega

theorem sumVals_mergeEntryAux
    (recur : List S → Option (List (String × S)))
    (Hrec : ∀ l m, recur l = some m → sumVals m + l.length ≤ sumS l)
    (merged : List (String × S)) (k : String) (v : S)
    (m' : List (String × S))
    (h : mergeEntryAux recur merged k v = some m') :
    sumVals m' ≤ sumVals merged + sizeS v := by
  unfold mergeEntryAux at h
  cases hl : lookupS merged k with
  | none =>
    rw [hl] at h
    simp only [Option.some.injEq] at h
    subst h
    simp [sumVals_append, sumVals_cons, sumVals]
  | some cur =>
    rw [hl] at h
    dsimp only at h
    by_cases ha : (isArrS cur || isArrS v) = true
    · rw [if_pos ha] at h
      have hcomb := sumS_combinedArraysOf_lt cur v ha
      by_cases hlen : (combinedArraysOf cur v).length > 0
      · rw [if_pos hlen] at h
        cases hr : recur (combinedArraysOf cur v) with
        | none => rw [hr] at h; exact absurd h (by simp)
        | some m =>
          rw [hr] at h
          simp only [Option.some.injEq] at h
          subst h
          have hb := Hrec (combinedArraysOf cur v) m hr
          have hset := sumVals_setS merged k cur
            (.arr (.cons (.obj (ofFields m)) .nil)) hl
          have hw := sizeS_wrapArr m
          omega
      · rw [if_neg hlen] at h
        simp only [Option.some.injEq] at h
        subst h
        have hset := sumVals_setS merged k cur emptyArrayLabel hl
        have := sizeS_pos cur
        have := sizeS_pos v
        rw [sizeS_emptyArrayLabel] at hset
        omega
    · rw [if_neg ha] at h
      by_cases ho : (isObjTypeS cur && isObjTypeS v) = true
      · rw [if_pos ho] at h
        cases hr : recur [cur, v] with
        | none => rw [hr] at h; exact absurd h (by simp)
        | some m =>
          rw [hr] at h
          simp only [Option.some.injEq] at h
          subst h
          have hb := Hrec [cur, v] m hr
          rw [sumS_pair] at hb
          have hset := sumVals_setS merged k cur (.obj (ofFields m)) hl
          have hw := sizeS_wrapObj m
          simp only [List.length_cons, List.length_nil] at hb
          omega
      · rw [if_neg ho] at h
        simp only [Option.some.injEq] at h
        subst h
        have hset := sumVals_setS merged k cur v hl
        have := sizeS_pos cur
        omega

theorem sumVals_mergeEntriesAux
    (recur : List S → Option (List (String × S)))
    (Hrec : ∀ l m, recur l = some m → sumVals m + l.length ≤ sumS l)
    (es : List (String × S)) :
    ∀ merged m', mergeEntriesAux recur merged es = some m' →
      sumVals m' ≤ sumVals merged + sumVals es := by
  induction es with
  | nil =>
    intro merged m' h
    simp only [mergeEntriesAux, Option.some.injEq] at h
    subst h
    simp [sumVals]
  | cons p rest ih =>
    intro merged m' h
    obtain ⟨k, v⟩ := p
    simp only [mergeEntriesAux] at h
    cases he : mergeEntryAux recur merged k v with
    | none => rw [he] at h; exact absurd h (by simp)
    | some m1 =>
      rw [he] at h
      have h1 := sumVals_mergeEntryAux recur Hrec merged k v m1 he
      have h2 := ih m1 m' h
      rw [sumVals_cons]
      dsimp only
      omega

theorem sumVals_mergeStructsAux
    (recur : List S → Option (List (String × S)))
    (Hrec : ∀ l m, recur l = some m → sumVals m + l.length ≤ sumS l)
    (l : List S) :
    ∀ merged m', mergeStructsAux recur merged l = some m' →
      sumVals m' + l.length ≤ sumVals merged + sumS l := by
  induction l with
  | nil =>
    intro merged m' h
    simp only [mergeStructsAux, Option.some.injEq] at h
    subst h
    simp [sumS]
  | cons s rest ih =>
    intro merged m' h
    simp only [mergeStructsAux] at h
    cases he : mergeEntriesAux recur merged (entriesOfS s) with
    | none => rw [he] at h; exact absurd h (by simp)
    | some m1 =>
      rw [he] at h
      have h1 := sumVals_mergeEntriesAux recur Hrec (entriesOfS s) merged m1 he
      have h2 := ih m1 m' h
      have h3 : sumVals (entriesOfS s) < sizeS s := entVals_lt s
      rw [sumS_cons]
      simp only [List.length_cons]
      omega

theorem sumVals_mergeF (fuel : Nat) :
    ∀ l m, mergeF fuel l = some m → sumVals m + l.length ≤ sumS l := by
  induction fuel with
  | zero => intro l m h; simp [mergeF] at h
  | succ fuel ih =>
    intro l m h
    simp only [mergeF] at h
    have := sumVals_mergeStructsAux (mergeF fuel) ih l [] m h
    simpa [sumVals] using this

theorem mergeEntryAux_isSome
    (recur : List S → Option (List (String × S))) (F : Nat)
    (HrecSome : ∀ l, sumS l < F → (recur l).isSome)
    (merged : List (String × S)) (k : String) (v : S)
    (Hcur : ∀ cur, lookupS merged k = some cur → sizeS cur + sizeS v < F) :
    (mergeEntryAux recur merged k v).isSome := by
  unfold mergeEntryAux
  cases hl : lookupS merged k with
  | none => simp
  | some cur =>
    have hF := Hcur cur hl
    dsimp only
    by_cases ha : (isArrS cur || isArrS v) = true
    · rw [if_pos ha]
      have hcomb := sumS_combinedArraysOf_lt cur v ha
      by_cases hlen : (combinedArraysOf cur v).length > 0
      · rw [if_pos hlen]
        have hsome := HrecSome (combinedArraysOf cur v) (by omega)
        cases hr : recur (combinedArraysOf cur v) with
        | none => rw [hr] at hsome; simp at hsome
        | some m => simp [hr]
      · rw [if_neg hlen]
        simp
    · rw [if_neg ha]
      by_cases ho : (isObjTypeS cur && isObjTypeS v) = true
      · rw [if_pos ho]
        have hsome := HrecSome [cur, v] (by rw [sumS_pair]; omega)
        cases hr : recur [cur, v] with
        | none => rw [hr] at hsome; simp at hsome
        | some m => simp [hr]
      · rw [if_neg ho]
        simp

theorem mergeEntriesAux_isSome
    (recur : List S → Option (List (String × S))) (F : Nat)
    (HrecSome : ∀ l, sumS l < F → (recur l).isSome)
    (Hrec : ∀ l m, recur l = some m → sumVals m + l.length ≤ sumS l)
    (es : List (String × S)) :
    ∀ merged, sumVals merged + sumVals es < F →
      (mergeEntriesAux recur merged es).isSome := by
  induction es with
  | nil => intro merged _; simp [mergeEntriesAux]
  | cons p rest ih =>
    intro merged hF
    obtain ⟨k, v⟩ := p
    rw [sumVals_cons] at hF
    dsimp only at hF
    simp only [mergeEntriesAux]
    have hcur : ∀ cur, lookupS merged k = some cur → sizeS cur + sizeS v < F := by
      intro cur hl
      have := sizeS_lookup_le merged k cur hl
      omega
    have hsome := mergeEntryAux_isSome recur F HrecSome merged k v hcur
    cases he : mergeEntryAux recur merged k v with
    | none => rw [he] at hsome; simp at hsome
    | some m1 =>
      have h1 := sumVals_mergeEntryAux recur Hrec merged k v m1 he
      exact ih m1 (by omega)

theorem mergeStructsAux_isSome
    (recur : List S → Option (List (String × S))) (F : Nat)
    (HrecSome : ∀ l, sumS l < F → (recur l).isSome)
    (Hrec : ∀ l m, recur l = some m → sumVals m + l.length ≤ sumS l)
    (l : List S) :
    ∀ merged, sumVals merged + sumS l ≤ F →
      (mergeStructsAux recur merged l).isSome := by
  induction l with
  | nil => intro merged _; simp [mergeStructsAux]
  | cons s rest ih =>
    intro merged hF
    rw [sumS_cons] at hF
    simp only [mergeStructsAux]
    have hs : sumVals (entriesOfS s) < sizeS s := entVals_lt s
    have h1 : sumVals merged + sumVals (entriesOfS s) < F := by
      have := sizeS_pos s
      have hr : 0 ≤ sumS rest := Nat.zero_le _
      omega
    have hsome := mergeEntriesAux_isSome recur F HrecSome Hrec (entriesOfS s)
      merged h1
    cases he : mergeEntriesAux recur merged (entriesOfS s) with
    | none => rw [he] at hsome; simp at hsome
    | some m1 =>
      have h2 := sumVals_mergeEntriesAux recur Hrec (entriesOfS s) merged m1 he
      exact ih m1 (by omega)

/-- Fuel sufficiency: any fuel strictly above the total node count succeeds. -/
theorem mergeF_isSome (fuel : Nat) :
    ∀ l, sumS l < fuel → (mergeF fuel l).isSome := by
  induction fuel with
  | zero => intro l h; omega
  | succ fuel ih =>
    intro l h
    simp only [mergeF]
    exact mergeStructsAux_isSome (mergeF fuel) fuel ih (sumVals_mergeF fuel) l
      [] (by simpa [sumVals] using Nat.lt_succ_iff.mp h)

theorem mergeEntryAux_mono
    (recur recur' : List S → Option (List (String × S)))
    (H : ∀ l m, recur l = some m → recur' l = some m)
    (merged : List (String × S)) (k : String) (v : S)
    (m' : List (String × S))
    (h : mergeEntryAux recur merged k v = some m') :
    mergeEntryAux recur' merged k v = some m' := by
  unfold mergeEntryAux at h ⊢
  cases hl : lookupS merged k with
  | none => rw [hl] at h; exact h
  | some cur =>
    rw [hl] at h
    dsimp only at h ⊢
    by_cases ha : (isArrS cur || isArrS v) = true
    · rw [if_pos ha] at h ⊢
      by_cases hlen : (combinedArraysOf cur v).length > 0
      · rw [if_pos hlen] at h ⊢
        cases hr : recur (combinedArraysOf cur v) with
        | none => rw [hr] at h; exact absurd h (by simp)
        | some m => rw [hr] at h; rw [H _ _ hr]; exact h
      · rw [if_neg hlen] at h ⊢; exact h
    · rw [if_neg ha] at h ⊢
      by_cases ho : (isObjTypeS cur && isObjTypeS v) = true
      · rw [if_pos ho] at h ⊢
        cases hr : recur [cur, v] with
        | none => rw [hr] at h; exact absurd h (by simp)
        | some m => rw [hr] at h; rw [H _ _ hr]; exact h
      · rw [if_neg ho] at h ⊢; exact h

theorem mergeEntriesAux_mono
    (recur recur' : List S → Option (List (String × S)))
    (H : ∀ l m, recur l = some m → recur' l = some m)
    (es : List (String × S)) :
    ∀ merged m', mergeEntriesAux recur merged es = some m' →
      mergeEntriesAux recur' merged es = some m' := by
  induction es with
  | nil => intro merged m' h; exact h
  | cons p rest ih =>
    intro merged m' h
    obtain ⟨k, v⟩ := p
    simp only [mergeEntriesAux] at h ⊢
    cases he : mergeEntryAux recur merged k v with
    | none => rw [he] at h; exact absurd h (by simp)
    | some m1 =>
      rw [he] at h
      rw [mergeEntryAux_mono recur recur' H merged k v m1 he]
      exact ih m1 m' h

theorem mergeStructsAux_mono
    (recur recur' : List S → Option (List (String × S)))
    (H : ∀ l m, recur l = some m → recur' l = some m)
    (l : List S) :
    ∀ merged m', mergeStructsAux recur merged l = some m' →
      mergeStructsAux recur' merged l = some m' := by
  induction l with
  | nil => intro merged m' h; exact h
  | cons s rest ih =>
    intro merged m' h
    simp only [mergeStructsAux] at h ⊢
    cases he : mergeEntriesAux recur merged (entriesOfS s) with
    | none => rw [he] at h; exact absurd h (by simp)
    | some m1 =>
      rw [he] at h
      rw [mergeEntriesAux_mono recur recur' H (entriesOfS s) merged m1 he]
      exact ih m1 m' h

theorem mergeF_mono_succ (fuel : Nat) :
    ∀ l m, mergeF fuel l = some m → mergeF (fuel + 1) l = some m := by
  induction fuel with
  | zero => intro l m h; simp [mergeF] at h
  | succ fuel ih =>
    intro l m h
    simp only [mergeF] at h ⊢
    exact mergeStructsAux_mono (mergeF fuel) (mergeF (fuel + 1)) ih l [] m h

theorem mergeF_mono (fuel fuel' : Nat) (hle : fuel ≤ fuel') :
    ∀ l m, mergeF fuel l = some m → mergeF fuel' l = some m := by
  induction fuel' with
  | zero =>
    intro l m h
    have : fuel = 0 := by omega
    subst this
    exact h
  | succ f ih =>
    intro l m h
    by_cases he : fuel = f + 1
    · subst he; exact h
    · exact mergeF_mono_succ f l m (ih (by omega) l m h)

/-- At any fuel strictly above the total node count, mergeF computes the
    canonical merged record mergeM. -/
theorem mergeF_eq_of_big (fuel : Nat) (l : List S) (h : sumS l < fuel) :
    mergeF fuel l = some (mergeM l) := by
  have h1 := mergeF_isSome fuel l h
  have h2 := mergeF_isSome (sumS l + 1) l (by omega)
  cases hr1 : mergeF fuel l with
  | none => rw [hr1] at h1; simp at h1
  | some m1 =>
    cases hr2 : mergeF (sumS l + 1) l with
    | none => rw [hr2] at h2; simp at h2
    | some m2 =>
      have e1 := mergeF_mono fuel (max fuel (sumS l + 1)) (Nat.le_max_left _ _)
        l m1 hr1
      have e2 := mergeF_mono (sumS l + 1) (max fuel (sumS l + 1))
        (Nat.le_max_right _ _) l m2 hr2
      rw [e1] at e2
      simp only [Option.some.injEq] at e2
      rw [mergeM, hr2]
      simp [e2]

/-- The canonical fuel run itself, as an equation on mergeM. -/
theorem mergeM_eq (l : List S) :
    mergeF (sumS l + 1) l = some (mergeM l) :=
  mergeF_eq_of_big (sumS l + 1) l (by omega)

-- ## Key-set lemmas for merge

theorem keysOf_mergeEntryAux
    (recur : List S → Option (List (String × S)))
    (merged : List (String × S)) (k : String) (v : S)
    (m' : List (String × S))
    (h : mergeEntryAux recur merged k v = some m') :
    ∀ x, x ∈ keysOf m' ↔ x ∈ keysOf merged ∨ x = k := by
  intro x
  unfold mergeEntryAux at h
  cases hl : lookupS merged k with
  | none =>
    rw [hl] at h
    simp only [Option.some.injEq] at h
    subst h
    simp [keysOf_append, keysOf_cons, keysOf_nil]
  | some cur =>
    have hk : k ∈ keysOf merged := by
      by_contra hc
      rw [← lookupS_none_iff] at hc
      rw [hc] at hl
      exact Option.noConfusion hl
    have hgoal : ∀ w, x ∈ keysOf (setS merged k w) ↔
        (x ∈ keysOf merged ∨ x = k) := by
      intro w
      rw [keysOf_setS]
      constructor
      · exact Or.inl
      · rintro (hx | hx)
        · exact hx
        · subst hx; exact hk
    rw [hl] at h
    dsimp only at h
    by_cases ha : (isArrS cur || isArrS v) = true
    · rw [if_pos ha] at h
      by_cases hlen : (combinedArraysOf cur v).length > 0
      · rw [if_pos hlen] at h
        cases hr : recur (combinedArraysOf cur v) with
        | none => rw [hr] at h; exact absurd h (by simp)
        | some m =>
          rw [hr] at h
          simp only [Option.some.injEq] at h
          subst h
          exact hgoal _
      · rw [if_neg hlen] at h
        simp only [Option.some.injEq] at h
        subst h
        exact hgoal _
    · rw [if_neg ha] at h
      by_cases ho : (isObjTypeS cur && isObjTypeS v) = true
      · rw [if_pos ho] at h
        cases hr : recur [cur, v] with
        | none => rw [hr] at h; exact absurd h (by simp)
        | some m =>
          rw [hr] at h
          simp only [Option.some.injEq] at h
          subst h
          exact hgoal _
      · rw [if_neg ho] at h
        simp only [Option.some.injEq] at h
        subst h
        exact hgoal _

theorem keysOf_mergeEntriesAux
    (recur : List S → Option (List (String × S)))
    (es : List (String × S)) :
    ∀ merged m', mergeEntriesAux recur merged es = some m' →
      ∀ x, x ∈ keysOf m' ↔ x ∈ keysOf merged ∨ x ∈ keysOf es := by
  induction es with
  | nil =>
    intro merged m' h x
    simp only [mergeEntriesAux, Option.some.injEq] at h
    subst h
    simp [keysOf_nil]
  | cons p rest ih =>
    intro merged m' h x
    obtain ⟨k, v⟩ := p
    simp only [mergeEntriesAux] at h
    cases he : mergeEntryAux recur merged k v with
    | none => rw [he] at h; exact absurd h (by simp)
    | some m1 =>
      rw [he] at h
      have h1 := keysOf_mergeEntryAux recur merged k v m1 he x
      have h2 := ih m1 m' h x
      rw [keysOf_cons]
      simp only [List.mem_cons]
      constructor
      · intro hx
        rcases h2.mp hx with hx1 | hx1
        · rcases h1.mp hx1 with hx2 | hx2
          · exact Or.inl hx2
          · exact Or.inr (Or.inl hx2)
        · exact Or.inr (Or.inr hx1)
      · rintro (hx | hx | hx)
        · exact h2.mpr (Or.inl (h1.mpr (Or.inl hx)))
        · exact h2.mpr (Or.inl (h1.mpr (Or.inr hx)))
        · exact h2.mpr (Or.inr hx)

theorem keysOf_mergeStructsAux
    (recur : List S → Option (List (String × S)))
    (l : List S) :
    ∀ merged m', mergeStructsAux recur merged l = some m' →
      ∀ x, x ∈ keysOf m' ↔
        x ∈ keysOf merged ∨ ∃ s ∈ l, x ∈ keysOf (entriesOfS s) := by
  induction l with
  | nil =>
    intro merged m' h x
    simp only [mergeStructsAux, Option.some.injEq] at h
    subst h
    simp
  | cons s rest ih =>
    intro merged m' h x
    simp only [mergeStructsAux] at h
    cases he : mergeEntriesAux recur merged (entriesOfS s) with
    | none => rw [he] at h; exact absurd h (by simp)
    | some m1 =>
      rw [he] at h
      have h1 := keysOf_mergeEntriesAux recur (entriesOfS s) merged m1 he x
      have h2 := ih m1 m' h x
      simp only [List.mem_cons]
      constructor
      · intro hx
        rcases h2.mp hx with hx1 | ⟨t, ht, hx1⟩
        · rcases h1.mp hx1 with hx2 | hx2
          · exact Or.inl hx2
          · exact Or.inr ⟨s, Or.inl rfl, hx2⟩
        · exact Or.inr ⟨t, Or.inr ht, hx1⟩
      · rintro (hx | ⟨t, ht | ht, hx⟩)
        · exact h2.mpr (Or.inl (h1.mpr (Or.inl hx)))
        · subst ht
          exact h2.mpr (Or.inl (h1.mpr (Or.inr hx)))
        · exact h2.mpr (Or.inr ⟨t, ht, hx⟩)

/-- The key set of the canonical merged record is exactly the union of the
    entry keys of the inputs. -/
theorem keysOf_mergeM (l : List S) :
    ∀ x, x ∈ keysOf (mergeM l) ↔ ∃ s ∈ l, x ∈ keysOf (entriesOfS s) := by
  intro x
  have h := mergeM_eq l
  simp only [mergeF] at h
  have := keysOf_mergeStructsAux (mergeF (sumS l)) l [] (mergeM l) h x
  simpa [keysOf_nil] using this

-- ## The side channels do not affect the classification result

mutual
theorem detSt_shape : ∀ (vb sl : Bool) (v : Json) (d : Nat) (st : AnState),
    (determineJsonStructureSt vb sl v d st).1 = determineJsonStructure v
  | vb, sl, .str s, d, st => by
    simp [determineJsonStructureSt, determineJsonStructure]
  | vb, sl, .num n, d, st => by
    simp [determineJsonStructureSt, determineJsonStructure]
  | vb, sl, .bool b, d, st => by
    simp [determineJsonStructureSt, determineJsonStructure]
  | vb, sl, .null, d, st => by
    simp [determineJsonStructureSt, determineJsonStructure]
  | vb, sl, .arr .nil, d, st => by
    simp [determineJsonStructureSt, determineJsonStructure]
  | vb, sl, .arr (.cons x xs), d, st => by
    simp only [determineJsonStructureSt, determineJsonStructure]
    rw [inferListSt_shape vb sl d 0 (.cons x xs) _]
  | vb, sl, .obj kvs, d, st => by
    simp only [determineJsonStructureSt, determineJsonStructure]
    rw [inferFieldsSt_shape vb sl d (lenJF kvs) 0 kvs _]
termination_by structural _ _ v => v

theorem inferListSt_shape : ∀ (vb sl : Bool) (depth idx : Nat) (l : JsonList)
    (st : AnState), (inferListSt vb sl depth idx l st).1 = inferList l
  | vb, sl, depth, idx, .nil, st => by simp [inferListSt, inferList]
  | vb, sl, depth, idx, .cons item tl, st => by
    simp only [inferListSt, inferList]
    rw [detSt_shape, inferListSt_shape vb sl depth (idx + 1) tl _]
termination_by structural _ _ _ _ l => l

theorem inferFieldsSt_shape : ∀ (vb sl : Bool) (depth len idx : Nat)
    (kvs : JsonFields) (st : AnState),
    (inferFieldsSt vb sl depth len idx kvs st).1 = inferFields kvs
  | vb, sl, depth, len, idx, .nil, st => by simp [inferFieldsSt, inferFields]
  | vb, sl, depth, len, idx, .cons k v tl, st => by
    simp only [inferFieldsSt, inferFields]
    rw [detSt_shape, inferFieldsSt_shape vb sl depth len (idx + 1) tl _]
termination_by structural _ _ _ _ _ fs => fs
end

-- ## Links between the mutual traversal components and list maps

theorem inferList_eq_map : ∀ l : JsonList,
    inferList l = (toListJ l).map determineJsonStructure
  | .nil => rfl
  | .cons hd tl => by
    simp [inferList, toListJ, inferList_eq_map tl]
termination_by structural l => l

theorem inferFields_eq_map : ∀ kvs : JsonFields,
    inferFields kvs =
      ofFields ((toFieldsJ kvs).map (fun p => (p.1, determineJsonStructure p.2)))
  | .nil => rfl
  | .cons k v tl => by
    simp [inferFields, toFieldsJ, ofFields, inferFields_eq_map tl]
termination_by structural fs => fs

-- ## Merge behavior on fresh keys and on repeated primitive-valued objects

theorem mergeEntriesAux_fresh
    (recur : List S → Option (List (String × S))) :
    ∀ (es merged : List (String × S)),
      (∀ k ∈ keysOf es, k ∉ keysOf merged) → (keysOf es).Nodup →
      mergeEntriesAux recur merged es = some (merged ++ es) := by
  intro es
  induction es with
  | nil => intro merged _ _; simp [mergeEntriesAux]
  | cons p rest ih =>
    intro merged hfresh hnd
    obtain ⟨k, v⟩ := p
    rw [keysOf_cons] at hfresh hnd
    rw [List.nodup_cons] at hnd
    have hk : k ∉ keysOf merged := hfresh k (List.mem_cons_self _ _)
    have hl : lookupS merged k = none := (lookupS_none_iff merged k).mpr hk
    simp only [mergeEntriesAux, mergeEntryAux, hl]
    have hrest := ih (merged ++ [(k, v)]) (by
      intro k2 hk2
      rw [keysOf_append, keysOf_cons, keysOf_nil]
      simp only [List.mem_append, List.mem_singleton]
      rintro (hc | hc)
      · exact hfresh k2 (List.mem_cons_of_mem _ hk2) hc
      · subst hc
        exact hnd.1 hk2) hnd.2
    rw [hrest, List.append_assoc]
    rfl

theorem mergeEntriesAux_absorb
    (recur : List S → Option (List (String × S))) :
    ∀ (es merged : List (String × S)),
      (∀ p ∈ es, lookupS merged p.1 = some p.2 ∧ ∃ lbl, p.2 = S.prim lbl) →
      mergeEntriesAux recur merged es = some merged := by
  intro es
  induction es with
  | nil => intro merged _; simp [mergeEntriesAux]
  | cons p rest ih =>
    intro merged hab
    obtain ⟨k, v⟩ := p
    obtain ⟨hl, lbl, hv⟩ := hab (k, v) (List.mem_cons_self _ _)
    dsimp only at hl hv
    subst hv
    simp only [mergeEntriesAux, mergeEntryAux, hl]
    have harr : (isArrS (S.prim lbl) || isArrS (S.prim lbl)) = false := rfl
    rw [harr]
    simp only [Bool.false_eq_true, if_false]
    have hobj : (isObjTypeS (S.prim lbl) && isObjTypeS (S.prim lbl)) = false := rfl
    rw [hobj]
    simp only [Bool.false_eq_true, if_false]
    rw [setS_self merged k (S.prim lbl) hl]
    exact ih merged (fun p hp => hab p (List.mem_cons_of_mem _ hp))

theorem mergeStructsAux_replicate_obj
    (recur : List S → Option (List (String × S))) (fs : SFields)
    (hprim : ∀ p ∈ toFields fs, ∃ lbl, p.2 = S.prim lbl)
    (hnd : (keysOf (toFields fs)).Nodup) :
    ∀ M, mergeStructsAux recur (toFields fs) (List.replicate M (S.obj fs)) =
      some (toFields fs) := by
  intro M
  induction M with
  | zero => simp [mergeStructsAux]
  | succ M ih =>
    rw [List.replicate_succ]
    simp only [mergeStructsAux, entriesOfS]
    rw [mergeEntriesAux_absorb recur (toFields fs) (toFields fs) (by
      intro p hp
      exact ⟨lookupS_of_mem_nodup (toFields fs) p.1 p.2 hnd (by
        obtain ⟨pk, pv⟩ := p
        exact hp), hprim p hp⟩)]
    exact ih

-- ## Claim theorems

/-- C1: determineJsonStructure classifies by the source precedence: an array
    with zero elements returns the EmptyArray sentinel "empty[]"; an array
    with elements returns a one-element array wrapping the merge of the
    element shapes (never per-index shapes); null returns the primitive
    label "null"; a non-array object returns an object shape with one entry
    per key, in the same key order, each value recursively inferred; any
    other value returns the primitive label of its runtime type name
    ("string", "number" or "boolean"). -/
theorem C1_classification :
    (determineJsonStructure (.arr .nil) = .prim "empty[]") ∧
    (∀ x xs, determineJsonStructure (.arr (.cons x xs)) =
      .arr (.cons
        (mergeStructures ((toListJ (.cons x xs)).map determineJsonStructure))
        .nil)) ∧
    (determineJsonStructure .null = .prim "null") ∧
    (∀ kvs, determineJsonStructure (.obj kvs) =
      .obj (ofFields ((toFieldsJ kvs).map
        (fun p => (p.1, determineJsonStructure p.2))))) ∧
    (∀ s, determineJsonStructure (.str s) = .prim "string") ∧
    (∀ n, determineJsonStructure (.num n) = .prim "number") ∧
    (∀ b, determineJsonStructure (.bool b) = .prim "boolean") := by
  refine ⟨by decide, ?_, by decide, ?_, ?_, ?_, ?_⟩
  · intro x xs
    simp only [determineJsonStructure]
    rw [inferList_eq_map]
  · intro kvs
    simp only [determineJsonStructure]
    rw [inferFields_eq_map]
  · intro s; simp [determineJsonStructure]
  · intro n; simp [determineJsonStructure]
  · intro b; simp [determineJsonStructure]

/-- C2: evaluating the analyzer as written on the inputs its own test suite
    covers: mergeStructures skips every non-object struct (type-name strings
    fail the typeof guard), so the shapes of [1,2,3] merge to the empty
    object, giving the structure one-element-array-of-empty-object, not the
    collapsed primitive label "number" that the claim and the repository's
    tests (root primitive array, union primitive array) require. -/
theorem C2_primitive_merge_eval :
    determineJsonStructure
        (.arr (.cons (.num 1) (.cons (.num 2) (.cons (.num 3) .nil)))) =
      .arr (.cons (.obj .nil) .nil) ∧
    mergeStructures [S.prim "number", S.prim "number", S.prim "number"] =
      S.obj .nil ∧
    S.arr (.cons (.obj .nil) .nil) ≠ S.arr (.cons (.prim "number") .nil) := by
  decide

/-- C3 counterexample: merging two object shapes that disagree on the
    primitive value of key k keeps the LAST shape encountered, not the
    first: the merge of the claim's scenario returns the incoming
    Primitive("string"), refuting first-seen-wins. -/
theorem C3_counterexample :
    mergeStructures
        [S.obj (.cons "k" (.prim "number") .nil),
         S.obj (.cons "k" (.prim "string") .nil)] =
      S.obj (.cons "k" (.prim "string") .nil) ∧
    S.obj (.cons "k" (.prim "string") .nil) ≠
      S.obj (.cons "k" (.prim "number") .nil) := by
  decide

/-- C3 amended: during merge, for a key present in more than one merged
    object shape where neither the existing nor the incoming value is
    array-shaped and the two are not both object-typed, the accumulator
    entry is overwritten with the INCOMING value (last-seen wins): the
    existing value is always replaced in that case. -/
theorem C3_amended_last_wins
    (recur : List S → Option (List (String × S)))
    (merged : List (String × S)) (k : String) (v cur : S)
    (hl : lookupS merged k = some cur)
    (ha1 : isArrS cur = false) (ha2 : isArrS v = false)
    (ho : (isObjTypeS cur && isObjTypeS v) = false) :
    mergeEntryAux recur merged k v = some (setS merged k v) ∧
    lookupS (setS merged k v) k = some v := by
  constructor
  · unfold mergeEntryAux
    rw [hl]
    dsimp only
    have hor : (isArrS cur || isArrS v) = false := by rw [ha1, ha2]; rfl
    rw [hor]
    simp only [Bool.false_eq_true, if_false]
    rw [ho]
    simp only [Bool.false_eq_true, if_false]
  · exact lookupS_setS_self merged k cur v hl

/-- C3 amended, witness: a concrete primitive-vs-primitive conflict where
    the incoming "string" overwrites the existing "number". -/
theorem C3_amended_last_wins_witness :
    mergeEntryAux (fun _ => none) [("k", S.prim "number")] "k"
        (S.prim "string") =
      some (setS [("k", S.prim "number")] "k" (S.prim "string")) ∧
    lookupS (setS [("k", S.prim "number")] "k" (S.prim "string")) "k" =
      some (S.prim "string") :=
  C3_amended_last_wins (fun _ => none) [("k", S.prim "number")] "k"
    (S.prim "string") (S.prim "number") (by decide) (by decide) (by decide)
    (by decide)

/-- C4: during merge, when the key exists and either side is array-shaped,
    both sides are normalized to lists (array shapes unwrapped, other shapes
    wrapped singleton), concatenated, and every "empty[]" entry dropped; if
    anything remains the result is the recursive merge of the combined list
    wrapped in a one-element array, otherwise the key is assigned the
    EmptyArray sentinel; and the combined list is empty exactly when every
    contributor was the EmptyArray sentinel. -/
theorem C4_array_branch
    (fuel : Nat) (merged : List (String × S)) (k : String) (v cur : S)
    (hl : lookupS merged k = some cur)
    (ha : (isArrS cur || isArrS v) = true)
    (hfuel : sizeS cur + sizeS v < fuel) :
    mergeEntryAux (mergeF fuel) merged k v =
      some (setS merged k
        (if (combinedArraysOf cur v).length > 0 then
          S.arr (.cons (S.obj (ofFields (mergeM (combinedArraysOf cur v))))
            .nil)
        else emptyArrayLabel)) ∧
    (combinedArraysOf cur v = [] ↔
      ∀ x ∈ currentArrayOf cur ++ newArrayOf v,
        isEmptyArrayLabel x = true) := by
  constructor
  · unfold mergeEntryAux
    rw [hl]
    dsimp only
    rw [if_pos ha]
    by_cases hlen : (combinedArraysOf cur v).length > 0
    · rw [if_pos hlen]
      have hlt : sumS (combinedArraysOf cur v) < fuel := by
        have := sumS_combinedArraysOf_lt cur v ha
        omega
      rw [mergeF_eq_of_big fuel (combinedArraysOf cur v) hlt]
      rw [if_pos hlen]
    · rw [if_neg hlen, if_neg hlen]
  · unfold combinedArraysOf
    rw [List.filter_eq_nil_iff]
    constructor
    · intro hall x hx
      have := hall x hx
      simpa using this
    · intro hall x hx
      simpa using hall x hx

/-- C4 witness: merging an incoming "number" into an existing array-of-number
    field: the combined list is nonempty and the key is rebound to the
    wrapped recursive merge. -/
theorem C4_array_branch_witness :
    (mergeEntryAux (mergeF 10)
        [("k", S.arr (.cons (.prim "number") .nil))] "k" (S.prim "number") =
      some (setS [("k", S.arr (.cons (.prim "number") .nil))] "k"
        (if (combinedArraysOf (S.arr (.cons (.prim "number") .nil))
            (S.prim "number")).length > 0 then
          S.arr (.cons (S.obj (ofFields (mergeM (combinedArraysOf
            (S.arr (.cons (.prim "number") .nil)) (S.prim "number")))))
            .nil)
        else emptyArrayLabel))) ∧
    (combinedArraysOf (S.arr (.cons (.prim "number") .nil))
        (S.prim "number") = [] ↔
      ∀ x ∈ currentArrayOf (S.arr (.cons (.prim "number") .nil)) ++
          newArrayOf (S.prim "number"),
        isEmptyArrayLabel x = true) :=
  C4_array_branch 10 [("k", S.arr (.cons (.prim "number") .nil))] "k"
    (S.prim "number") (S.arr (.cons (.prim "number") .nil)) (by decide)
    (by decide) (by decide)

/-- C5: the key set of a merge of object shapes is the union of the key sets
    of all inputs (no field is dropped), final key-set membership is
    independent of the input order, and the spec's concrete example merges
    a, b, c all to Primitive("number"). -/
theorem C5_keyset_union :
    (∀ l : List S, (∀ s ∈ l, ∃ fs, s = S.obj fs) →
      ∀ k, (k ∈ keysOf (mergeM l) ↔
        ∃ fs, S.obj fs ∈ l ∧ k ∈ keysOf (toFields fs))) ∧
    (∀ l l' : List S, l.Perm l' →
      ∀ k, (k ∈ keysOf (mergeM l) ↔ k ∈ keysOf (mergeM l'))) ∧
    determineJsonStructure
        (.arr (.cons (.obj (.cons "a" (.num 1) .nil))
          (.cons (.obj (.cons "b" (.num 2) .nil))
            (.cons (.obj (.cons "a" (.num 5) (.cons "c" (.num 9) .nil)))
              .nil)))) =
      .arr (.cons (.obj (.cons "a" (.prim "number")
        (.cons "b" (.prim "number") (.cons "c" (.prim "number") .nil))))
        .nil) := by
  refine ⟨?_, ?_, by decide⟩
  · intro l hobj k
    rw [keysOf_mergeM]
    constructor
    · rintro ⟨s, hs, hk⟩
      obtain ⟨fs, rfl⟩ := hobj s hs
      exact ⟨fs, hs, by simpa [entriesOfS] using hk⟩
    · rintro ⟨fs, hs, hk⟩
      exact ⟨S.obj fs, hs, by simpa [entriesOfS] using hk⟩
  · intro l l' hperm k
    rw [keysOf_mergeM, keysOf_mergeM]
    constructor
    · rintro ⟨s, hs, hk⟩
      exact ⟨s, hperm.mem_iff.mp hs, hk⟩
    · rintro ⟨s, hs, hk⟩
      exact ⟨s, hperm.mem_iff.mpr hs, hk⟩

/-- C5 witness: the union characterization applied to a concrete two-object
    merge, showing key membership for a key of the second input. -/
theorem C5_keyset_union_witness :
    "b" ∈ keysOf (mergeM
      [S.obj (.cons "a" (.prim "number") .nil),
       S.obj (.cons "b" (.prim "number") .nil)]) :=
  (C5_keyset_union.1
    [S.obj (.cons "a" (.prim "number") .nil),
     S.obj (.cons "b" (.prim "number") .nil)]
    (by
      intro s hs
      simp only [List.mem_cons, List.not_mem_nil, or_false] at hs
      rcases hs with rfl | rfl
      · exact ⟨.cons "a" (.prim "number") .nil, rfl⟩
      · exact ⟨.cons "b" (.prim "number") .nil, rfl⟩)
    "b").mpr
    ⟨.cons "b" (.prim "number") .nil, by decide, by decide⟩

/-- C6: the complexity traversal returns the current depth on primitives and
    on the EmptyArray sentinel; descends into an array's first wrapped
    element at the SAME depth; on an object adds every field name to the one
    global name set and recurses into object-typed values at depth + 1
    tracking the maximum; calculateStructureComplexity is the traversal from
    depth 0 with the set's size; and the two spec examples evaluate to
    maxDepth 0 / uniqueFields 2 and maxDepth 3 / uniqueFields 4. -/
theorem C6_complexity :
    (∀ lbl (d : Nat) (f : List String), traverseS (.prim lbl) d f = (d, f)) ∧
    (∀ (d : Nat) (f : List String), traverseS (.arr .nil) d f = (d, f)) ∧
    (∀ e rest (d : Nat) (f : List String),
      traverseS (.arr (.cons e rest)) d f = traverseS e d f) ∧
    (∀ fs (d : Nat) (f : List String),
      traverseS (.obj fs) d f = traverseFields fs d d f) ∧
    (∀ k v tl (d md : Nat) (f : List String),
      traverseFields (.cons k v tl) d md f =
        (if isObjTypeS v then
          traverseFields tl d (max md (traverseS v (d + 1) (addField f k)).1)
            (traverseS v (d + 1) (addField f k)).2
        else traverseFields tl d md (addField f k))) ∧
    (∀ s, calculateStructureComplexity s =
      ((traverseS s 0 []).1, (traverseS s 0 []).2.length)) ∧
    calculateStructureComplexity (determineJsonStructure
      (.obj (.cons "a" (.num 1) (.cons "b" (.num 2) .nil)))) = (0, 2) ∧
    calculateStructureComplexity (determineJsonStructure
      (.obj (.cons "a" (.obj (.cons "b" (.obj (.cons "c"
        (.obj (.cons "d" (.num 1) .nil)) .nil)) .nil)) .nil))) = (3, 4) := by
  refine ⟨?_, ?_, ?_, ?_, ?_, ?_, by decide, by decide⟩
  · intro lbl d f; simp [traverseS]
  · intro d f; simp [traverseS]
  · intro e rest d f; simp [traverseS]
  · intro fs d f; simp [traverseS]
  · intro k v tl d md f
    by_cases h : isObjTypeS v = true
    · simp [traverseFields, h]
    · simp [traverseFields, h]
  · intro s; simp [calculateStructureComplexity]

/-- C7 counterexample: merge is not idempotent on repetition: merging the
    one-element list holding Primitive("number") yields the empty object
    shape, not the primitive back (type-name strings are skipped by the
    typeof guard), refuting the claim already at N = 1. -/
theorem C7_counterexample :
    mergeStructures (List.replicate 1 (S.prim "number")) = S.obj .nil ∧
    S.obj .nil ≠ S.prim "number" := by
  decide

/-- C7 amended: idempotence on repetition does hold for object shapes with
    distinct field names whose values are all primitive labels: merging N
    copies (N at least 1) of such a shape returns the same shape; for bare
    primitive shapes repetition instead collapses to the empty object. -/
theorem C7_amended_idempotent
    (fs : SFields) (N : Nat) (hN : 1 ≤ N)
    (hnd : (keysOf (toFields fs)).Nodup)
    (hprim : ∀ p ∈ toFields fs, ∃ lbl, p.2 = S.prim lbl) :
    mergeStructures (List.replicate N (S.obj fs)) = S.obj fs := by
  obtain ⟨M, rfl⟩ : ∃ M, N = M + 1 := ⟨N - 1, by omega⟩
  have hrun : mergeF (sumS (List.replicate (M + 1) (S.obj fs)) + 1)
      (List.replicate (M + 1) (S.obj fs)) = some (toFields fs) := by
    simp only [mergeF, List.replicate_succ, mergeStructsAux, entriesOfS]
    rw [mergeEntriesAux_fresh _ (toFields fs) [] (by simp [keysOf_nil]) hnd]
    simp only [List.nil_append]
    exact mergeStructsAux_replicate_obj _ fs hprim hnd M
  unfold mergeStructures mergeM
  rw [hrun]
  simp [ofFields_toFields]

/-- C7 amended, witness: three copies of an object shape with two distinct
    primitive-valued fields merge back to the same shape. -/
theorem C7_amended_idempotent_witness :
    mergeStructures (List.replicate 3
      (S.obj (.cons "a" (.prim "number") (.cons "b" (.prim "string") .nil)))) =
    S.obj (.cons "a" (.prim "number") (.cons "b" (.prim "string") .nil)) :=
  C7_amended_idempotent
    (.cons "a" (.prim "number") (.cons "b" (.prim "string") .nil)) 3
    (by decide) (by decide)
    (by
      intro p hp
      simp only [toFields, List.mem_cons, List.not_mem_nil, or_false] at hp
      rcases hp with rfl | rfl
      · exact ⟨"number", rfl⟩
      · exact ⟨"string", rfl⟩)

/-- C8: the classification result is deterministic and independent of the
    side channels: for every verbosity and silence flag, every depth
    argument, and every incoming instance state (including state left over
    from earlier calls on the same analyzer), the structure returned by the
    state-threaded determineJsonStructure equals the pure classification. -/
theorem C8_side_channel_free :
    ∀ (verbose silent : Bool) (v : Json) (depth : Nat) (st : AnState),
      (determineJsonStructureSt verbose silent v depth st).1 =
        determineJsonStructure v :=
  fun vb sl v d st => detSt_shape vb sl v d st

/-- C9: inference is total: mergeStructures at its canonical fuel always
    succeeds (never exhausts fuel, hence never fails), and the merge of the
    empty shape list is the defensive empty object shape. -/
theorem C9_totality :
    (∀ l : List S, (mergeF (sumS l + 1) l).isSome) ∧
    mergeStructures [] = S.obj .nil :=
  ⟨fun l => mergeF_isSome (sumS l + 1) l (by omega), by decide⟩

/-- C10 counterexample: inferring [[1],[2]] yields the index-keyed object
    one-element-array-of-(0 mapped to empty object), not the claimed
    (0 mapped to "number"): the inner merges of primitive element shapes
    collapse to the empty object first. -/
theorem C10_counterexample :
    determineJsonStructure
        (.arr (.cons (.arr (.cons (.num 1) .nil))
          (.cons (.arr (.cons (.num 2) .nil)) .nil))) =
      .arr (.cons (.obj (.cons "0" (.obj .nil) .nil)) .nil) ∧
    S.obj (.cons "0" (.obj .nil) .nil) ≠
      S.obj (.cons "0" (.prim "number") .nil) := by
  decide

/-- C10 amended: merge treats arrays as index-keyed field maps: Object
    entries of an array shape are its elements keyed by the decimal index
    strings, merging two one-element array shapes (with non-array,
    object-typed elements) produces a record keyed by "0" holding the
    recursive merge of the elements, and concretely inferring [[1],[2]]
    yields one-element-array-of-(0 mapped to the empty object). -/
theorem C10_amended_index_keys :
    (∀ es, entriesOfS (S.arr es) =
      (toListS es).enum.map (fun p => (toString p.1, p.2))) ∧
    (∀ a b : S, isArrS a = false → isArrS b = false →
      isObjTypeS a = true → isObjTypeS b = true →
      mergeM [S.arr (.cons a .nil), S.arr (.cons b .nil)] =
        [("0", S.obj (ofFields (mergeM [a, b])))]) ∧
    determineJsonStructure
        (.arr (.cons (.arr (.cons (.num 1) .nil))
          (.cons (.arr (.cons (.num 2) .nil)) .nil))) =
      .arr (.cons (.obj (.cons "0" (.obj .nil) .nil)) .nil) := by
  refine ⟨fun es => rfl, ?_, by decide⟩
  intro a b ha hb hoa hob
  have hts : toString (0 : Nat) = "0" := by decide
  have hentry : ∀ c : S, entriesOfS (S.arr (.cons c .nil)) = [("0", c)] := by
    intro c
    simp [entriesOfS, toListS, List.enum_cons, hts]
  have hsum : sumS [S.arr (.cons a .nil), S.arr (.cons b .nil)] =
      sizeS a + sizeS b + 2 := by
    simp [sumS, sizeS, sizeSL]
    omega
  have hlt : sumS [a, b] < sumS [S.arr (.cons a .nil), S.arr (.cons b .nil)] := by
    rw [hsum, sumS_pair]
    omega
  set recur := mergeF (sumS [S.arr (.cons a .nil), S.arr (.cons b .nil)])
    with hrecdef
  have hrec : recur [a, b] = some (mergeM [a, b]) :=
    mergeF_eq_of_big _ [a, b] hlt
  have hor : (isArrS a || isArrS b) = false := by rw [ha, hb]; rfl
  have hand : (isObjTypeS a && isObjTypeS b) = true := by rw [hoa, hob]; rfl
  have h1 : mergeEntryAux recur [] "0" a = some [("0", a)] := by
    simp [mergeEntryAux, lookupS]
  have h2 : mergeEntriesAux recur [] [("0", a)] = some [("0", a)] := by
    simp [mergeEntriesAux, h1]
  have h3 : mergeEntryAux recur [("0", a)] "0" b =
      some [("0", S.obj (ofFields (mergeM [a, b])))] := by
    unfold mergeEntryAux
    have hlook : lookupS [("0", a)] "0" = some a := by simp [lookupS]
    rw [hlook]
    dsimp only
    rw [hor]
    simp only [Bool.false_eq_true, if_false]
    rw [hand]
    simp only [if_true]
    rw [hrec]
    simp [setS]
  have h4 : mergeEntriesAux recur [("0", a)] [("0", b)] =
      some [("0", S.obj (ofFields (mergeM [a, b])))] := by
    simp [mergeEntriesAux, h3]
  have h5 : mergeStructsAux recur []
      [S.arr (.cons a .nil), S.arr (.cons b .nil)] =
      some [("0", S.obj (ofFields (mergeM [a, b])))] := by
    simp only [mergeStructsAux, hentry a, hentry b, h2, h4]
  have h6 : mergeF (sumS [S.arr (.cons a .nil), S.arr (.cons b .nil)] + 1)
      [S.arr (.cons a .nil), S.arr (.cons b .nil)] =
      some [("0", S.obj (ofFields (mergeM [a, b])))] := by
    simp only [mergeF, ← hrecdef]
    exact h5
  have h7 := mergeM_eq [S.arr (.cons a .nil), S.arr (.cons b .nil)]
  rw [h6] at h7
  injection h7 with h8
  exact h8.symm

/-- C10 amended, witness: two singleton arrays of empty objects merge into a
    record keyed by the index string "0". -/
theorem C10_amended_index_keys_witness :
    mergeM [S.arr (.cons (S.obj .nil) .nil), S.arr (.cons (S.obj .nil) .nil)] =
      [("0", S.obj (ofFields (mergeM [S.obj .nil, S.obj .nil])))] :=
  C10_amended_index_keys.2.1 (S.obj .nil) (S.obj .nil) (by decide) (by decide)
    (by decide) (by decide)
